import Mathlib

/-!
Verification of the RequestStore core of the 3D Print Inbox application
(source: src/src/PrintInboxHub2.jsx).

The pure helpers of the source (`triageBuckets`, `sortRequests`, `toCSV`,
the filter inside the `filtered` memo) and the event handlers
(`submitRequest`, `retrySync`, `refreshFromSheet`, `updateRequest`, and the
hydration effects) are embedded as Lean functions over an explicit record
type.  Host-environment services are modelled explicitly:

* `new Date(str).getTime()` is an abstract parameter
  `parse : String → Option Int` (`none` models `NaN`, i.e. an invalid date);
* the local-calendar accessors `getFullYear`/`getMonth`/`getDate` and
  `setHours(0,0,0,0)` are modelled per ECMA-262 ("local time = UTC + a fixed
  offset", proleptic Gregorian calendar): a timestamp in milliseconds is
  shifted by the offset, floored to a day number, and the day number is
  converted to a civil date;
* `fetch` outcomes are a two-valued type: the promise either resolves (with
  an opaque response, `mode: "no-cors"` — the body is never read) or rejects
  (a network-level failure, which is the only case in which no readable
  response exists);
* `Array.prototype.sort` (stable, ES2019) is modelled as a stable insertion
  sort driven by the exact comparator of the source, including the JavaScript
  `Infinity`/`NaN` arithmetic of the `due` branch.
-/

/-! ### Enumerations of the data model -/

inductive Priority
  | low
  | normal
  | high
  | urgent
deriving DecidableEq

inductive Status
  | new
  | inProgress
  | done
  | archived
deriving DecidableEq

/-- `priorityRank` from the source: rank(Low)=0, rank(Normal)=1, rank(High)=2,
rank(Urgent)=3. -/
def priorityRank : Priority → Int
  | .low => 0
  | .normal => 1
  | .high => 2
  | .urgent => 3

/-- The display string of a priority (the strings used by the source). -/
def Priority.str : Priority → String
  | .low => "Low"
  | .normal => "Normal"
  | .high => "High"
  | .urgent => "Urgent"

/-- The display string of a status (the strings used by the source). -/
def Status.str : Status → String
  | .new => "New"
  | .inProgress => "In Progress"
  | .done => "Done"
  | .archived => "Archived"

/-! ### The Request record -/

/-- A request record as created by `submitRequest` and stored in the
`requests` state array.  `dueDate` is `none` when the field is absent
(`undefined` in the source); it otherwise holds the raw ISO string. -/
structure Request where
  id : String
  createdAt : String
  name : String
  description : String
  dueDate : Option String
  priority : Priority
  status : Status
  devNotes : String
  pinned : Bool
  synced : Bool
deriving DecidableEq

/-- JavaScript truthiness of an optional string: `undefined` and the empty
string are falsy (`!iso`, `r.dueDate ? _ : _`, `r.dueDate || ""`). -/
def strTruthy : Option String → Option String
  | none => none
  | some s => if s = "" then none else some s

/-! ### JavaScript string helpers used by the handlers -/

/-- The ECMAScript WhiteSpace / LineTerminator set used by `String.trim`. -/
def jsWhitespace (c : Char) : Bool :=
  c = ' ' || c = '\t' || c = '\n' || c = '\r' ||
  c.toNat = 11 || c.toNat = 12 || c.toNat = 0xA0 || c.toNat = 0xFEFF ||
  c.toNat = 0x1680 || (0x2000 ≤ c.toNat && c.toNat ≤ 0x200A) ||
  c.toNat = 0x2028 || c.toNat = 0x2029 || c.toNat = 0x202F ||
  c.toNat = 0x205F || c.toNat = 0x3000

/-- `String.prototype.trim`. -/
def jsTrim (s : String) : String :=
  ⟨((s.data.dropWhile jsWhitespace).reverse.dropWhile jsWhitespace).reverse⟩

/-- `String.prototype.toLowerCase` (simple per-character lowering). -/
def jsToLower (s : String) : String :=
  ⟨s.data.map Char.toLower⟩

/-- Whether `pat` occurs as a contiguous prefix of `l`. -/
def listPrefix : List Char → List Char → Bool
  | [], _ => true
  | _ :: _, [] => false
  | a :: as, b :: bs => a = b && listPrefix as bs

/-- `String.prototype.includes`: whether `pat` occurs contiguously in `hay`. -/
def listInfix (pat : List Char) : List Char → Bool
  | [] => listPrefix pat []
  | hay@(_ :: rest) => listPrefix pat hay || listInfix pat rest

/-! ### The local calendar (model of the ECMAScript Date accessors)

A timestamp `t` (milliseconds since the epoch) at a fixed local offset `off`
(milliseconds east of UTC) falls on local day number `(t + off) / 86400000`
(floor division; `Int` division in Lean is Euclidean, which agrees with floor
for the positive divisor).  The day number is converted to a proleptic
Gregorian civil date by the era/century/year layering below (146097 days per
400-year era; century `c` of an era starts on day `(146097 * c) / 4`; year
`yoc` of a century starts on day `(1461 * yoc) / 4`; the March-based month
layout `(5 * doy + 2) / 153`). -/

/-- Civil date (year, month `1..12`, day `1..31`) of a day number
(day 0 = 1970-01-01). -/
def civilFromDays (z : Int) : Int × Int × Int :=
  let zz := z + 719468
  let era := zz / 146097
  let doe := zz - era * 146097
  let c := (4 * doe + 3) / 146097
  let doc := doe - (146097 * c) / 4
  let yoc := (4 * doc + 3) / 1461
  let doy := doc - (1461 * yoc) / 4
  let y := yoc + c * 100 + era * 400
  let mp := (5 * doy + 2) / 153
  let d := doy - (153 * mp + 2) / 5 + 1
  let m := if mp < 10 then mp + 3 else mp - 9
  (if m ≤ 2 then y + 1 else y, m, d)

/-- Day number of a civil date: the inverse of `civilFromDays`. -/
def daysFromCivil (y m d : Int) : Int :=
  let yy := if m ≤ 2 then y - 1 else y
  let era := yy / 400
  let yoe := yy - era * 400
  let c := yoe / 100
  let yoc := yoe - c * 100
  let mp := if m ≤ 2 then m + 9 else m - 3
  let doy := (153 * mp + 2) / 5 + d - 1
  let doc := (1461 * yoc) / 4 + doy
  let doe := (146097 * c) / 4 + doc
  era * 146097 + doe - 719468

/-- Local day number containing timestamp `t` at offset `off`. -/
def localDayNumber (off t : Int) : Int := (t + off) / 86400000

/-- The (getFullYear, getMonth-as-1-based, getDate) triple of a valid
timestamp. -/
def localCivil (off t : Int) : Int × Int × Int :=
  civilFromDays (localDayNumber off t)

/-- `today.setHours(0, 0, 0, 0)`: the timestamp of local midnight of the day
containing `now`. -/
def startOfToday (off now : Int) : Int :=
  86400000 * localDayNumber off now - off

/-! ### triageBuckets -/

structure TriageOut where
  overdue : List Request
  dueToday : List Request
deriving DecidableEq

/-- `isToday` from the source: a falsy `dueDate` is never today; an invalid
date is never today; otherwise the (year, month, date) local triple of the
parsed timestamp is compared with the triple of the (midnight) `today`
value. -/
def isToday (off today : Int) (parse : String → Option Int)
    (iso : Option String) : Bool :=
  match strTruthy iso with
  | none => false
  | some s =>
    match parse s with
    | none => false
    | some t => decide (localCivil off t = localCivil off today)

/-- `triageBuckets` from the source.  `overdue` keeps records whose due date
is truthy, parses to a valid timestamp strictly before local midnight of
today, and whose status is not `Done`; `dueToday` keeps records whose due
date falls on the current local calendar date. -/
def triageBuckets (off now : Int) (parse : String → Option Int)
    (reqs : List Request) : TriageOut :=
  let today := startOfToday off now
  { overdue := reqs.filter fun r =>
      match strTruthy r.dueDate with
      | none => false
      | some s =>
        match parse s with
        | none => false
        | some t => decide (t < today) && decide (r.status ≠ .done)
    dueToday := reqs.filter fun r => isToday off today parse r.dueDate }

/-! ### Calendar roundtrip -/

/-- Core of the calendar roundtrip, stated over abstract layer variables so
that each range fact is a small linear goal. -/
theorem daysFromCivil_layers (zz era doe c q1 doc yoc q2 doy mp q3 d : Int)
    (hera : era = zz / 146097) (hdoe : doe = zz - era * 146097)
    (hc : c = (4 * doe + 3) / 146097) (hq1 : q1 = (146097 * c) / 4)
    (hdoc : doc = doe - q1)
    (hyoc : yoc = (4 * doc + 3) / 1461) (hq2 : q2 = (1461 * yoc) / 4)
    (hdoy : doy = doc - q2)
    (hmp : mp = (5 * doy + 2) / 153) (hq3 : q3 = (153 * mp + 2) / 5)
    (hd : d = doy - q3 + 1) :
    daysFromCivil
      (if (if mp < 10 then mp + 3 else mp - 9) ≤ 2 then
        yoc + c * 100 + era * 400 + 1 else yoc + c * 100 + era * 400)
      (if mp < 10 then mp + 3 else mp - 9) d = zz - 719468 := by
  have h1 : 0 ≤ doe ∧ doe < 146097 := by omega
  have h2 : 0 ≤ c ∧ c ≤ 3 := by omega
  have h3 : 0 ≤ doc ∧ doc ≤ 36524 := by omega
  have h4 : 0 ≤ yoc ∧ yoc ≤ 99 := by omega
  have h5 : 0 ≤ doy ∧ doy ≤ 365 := by omega
  have h6 : 0 ≤ mp ∧ mp ≤ 11 := by omega
  simp only [daysFromCivil]
  split_ifs with hA hB hC
  · omega
  · have e0 : mp + 3 - 3 = mp := by ring
    rw [e0]
    have e1 : (yoc + c * 100 + era * 400) / 400 = era := by omega
    rw [e1]
    have e2 : yoc + c * 100 + era * 400 - era * 400 = yoc + c * 100 := by ring
    rw [e2]
    have e3 : (yoc + c * 100) / 100 = c := by omega
    rw [e3]
    have e4 : yoc + c * 100 - c * 100 = yoc := by ring
    rw [e4]
    omega
  · have e0 : mp - 9 + 9 = mp := by ring
    rw [e0]
    have ey : yoc + c * 100 + era * 400 + 1 - 1 = yoc + c * 100 + era * 400 := by
      ring
    rw [ey]
    have e1 : (yoc + c * 100 + era * 400) / 400 = era := by omega
    rw [e1]
    have e2 : yoc + c * 100 + era * 400 - era * 400 = yoc + c * 100 := by ring
    rw [e2]
    have e3 : (yoc + c * 100) / 100 = c := by omega
    rw [e3]
    have e4 : yoc + c * 100 - c * 100 = yoc := by ring
    rw [e4]
    omega
  · omega

/-- The civil-date conversion is a section of `daysFromCivil`: whenever a day
number converts to a (year, month, day) triple, converting the triple back
gives the day number.  In particular the triple determines the day number. -/
theorem daysFromCivil_civilFromDays (z y m d : Int)
    (h : civilFromDays z = (y, m, d)) : daysFromCivil y m d = z := by
  simp only [civilFromDays, Prod.mk.injEq] at h
  obtain ⟨hy, hm, hd⟩ := h
  subst hy hm hd
  have h := daysFromCivil_layers (z + 719468)
    ((z + 719468) / 146097)
    (z + 719468 - (z + 719468) / 146097 * 146097)
    _ _ _ _ _ _ _ _ _ rfl rfl rfl rfl rfl rfl rfl rfl rfl rfl rfl
  omega

/-- `civilFromDays` is injective. -/
theorem civilFromDays_inj {z w : Int}
    (h : civilFromDays z = civilFromDays w) : z = w := by
  rcases hE : civilFromDays w with ⟨y, m, d⟩
  have hz := daysFromCivil_civilFromDays z y m d (h.trans hE)
  have hw := daysFromCivil_civilFromDays w y m d hE
  omega

/-! ### sortRequests and the query pipeline -/

/-- The JavaScript numbers produced by the sort comparator: an integer, the
two infinities (`Infinity` is the due-date key of an absent due date), or
`NaN` (the result of arithmetic on an invalid date or `Infinity - Infinity`).
-/
inductive JSNum
  | num (n : Int)
  | inf
  | ninf
  | nan
deriving DecidableEq

/-- JavaScript subtraction on the comparator values. -/
def jsSub : JSNum → JSNum → JSNum
  | .num a, .num b => .num (a - b)
  | .num _, .inf => .ninf
  | .num _, .ninf => .inf
  | .inf, .num _ => .inf
  | .ninf, .num _ => .ninf
  | .inf, .inf => .nan
  | .inf, .ninf => .inf
  | .ninf, .inf => .ninf
  | .ninf, .ninf => .nan
  | .nan, _ => .nan
  | _, .nan => .nan

/-- `new Date(s).getTime()` as a comparator value (`NaN` for an invalid
date). -/
def getTime (parse : String → Option Int) (s : String) : JSNum :=
  match parse s with
  | none => .nan
  | some t => .num t

/-- The `due` sort key of a record: `a.dueDate ? new Date(a.dueDate).getTime()
: Infinity`. -/
def dueTime (parse : String → Option Int) (r : Request) : JSNum :=
  match strTruthy r.dueDate with
  | none => .inf
  | some s => getTime parse s

inductive SortKey
  | newest
  | oldest
  | due
  | priority
deriving DecidableEq

/-- The comparator passed to `copy.sort` in `sortRequests`: the pinned flag is
the primary key, then the chosen sort key. -/
def sortCmp (parse : String → Option Int) (key : SortKey)
    (a b : Request) : JSNum :=
  if a.pinned && !b.pinned then .num (-1)
  else if b.pinned && !a.pinned then .num 1
  else
    match key with
    | .oldest => jsSub (getTime parse a.createdAt) (getTime parse b.createdAt)
    | .due => jsSub (dueTime parse a) (dueTime parse b)
    | .priority => .num (priorityRank b.priority - priorityRank a.priority)
    | .newest => jsSub (getTime parse b.createdAt) (getTime parse a.createdAt)

/-- "`a` may stay before `b`": the comparator value is at most zero.  Per the
`SortCompare` abstract operation a `NaN` comparator result is treated as
`+0`. -/
def leOfCmp : JSNum → Bool
  | .num n => decide (n ≤ 0)
  | .inf => false
  | .ninf => true
  | .nan => true

/-- The boolean order driving the stable sort. -/
def sortLe (parse : String → Option Int) (key : SortKey)
    (a b : Request) : Bool :=
  leOfCmp (sortCmp parse key a b)

/-- Stable insertion of `a` into `l`: `a` is placed before the first element
it may stay before. -/
def insertBy (le : Request → Request → Bool) (a : Request) :
    List Request → List Request
  | [] => [a]
  | b :: l => if le a b then a :: b :: l else b :: insertBy le a l

/-- `sortRequests` from the source: a stable sort of a copy of the input by
the comparator (ES2019 `Array.prototype.sort` is stable; for a consistent
comparator the stable sorted permutation is unique, and it is computed here
as a right-fold insertion sort). -/
def sortRequests (parse : String → Option Int) (reqs : List Request)
    (key : SortKey) : List Request :=
  reqs.foldr (insertBy (sortLe parse key)) []

/-! ### The filter of the `filtered` memo -/

structure FilterSpec where
  searchTerm : String
  statusFilter : Option Status
  priorityFilter : Option Priority

/-- The predicate of the `filtered` memo: case-insensitive substring match of
the trimmed search term against name or description, and exact match of the
status / priority dropdowns (`none` models the "All" choice). -/
def matchesFilter (spec : FilterSpec) (r : Request) : Bool :=
  let term := jsTrim (jsToLower spec.searchTerm)
  (term = "" || listInfix term.data (jsToLower r.name).data ||
      listInfix term.data (jsToLower r.description).data) &&
    (match spec.statusFilter with
      | none => true
      | some s => decide (r.status = s)) &&
    (match spec.priorityFilter with
      | none => true
      | some p => decide (r.priority = p))

/-- The full `query` pipeline of the `filtered` memo: filter, then sort. -/
def query (parse : String → Option Int) (spec : FilterSpec) (key : SortKey)
    (reqs : List Request) : List Request :=
  sortRequests parse (reqs.filter (matchesFilter spec)) key

/-! ### CSV export -/

/-- The header row of the export, exactly as in the source. -/
def csvHeaders : List String :=
  ["createdAt", "name", "description", "dueDate", "priority", "status",
   "devNotes", "pinned"]

/-- Whether the field must be quoted: the regex test `/[",\n]/`. -/
def needsQuote (s : List Char) : Bool :=
  s.any fun c => c = ',' || c = '"' || c = '\n'

/-- `str.replace(/"/g, m n)` with `m n` the doubled quote: double every
double-quote character. -/
def escQ : List Char → List Char
  | [] => []
  | c :: cs => if c = '"' then '"' :: '"' :: escQ cs else c :: escQ cs

/-- The `esc` helper of `toCSV`: wrap in double quotes, with internal double
quotes doubled, exactly when the field contains a comma, double quote or
newline. -/
def esc (s : String) : List Char :=
  if needsQuote s.data then '"' :: escQ s.data ++ ['"'] else s.data

/-- The eight field values of one record, in header order (`r.dueDate || ""`
and the true/false rendering of `pinned` as in the source). -/
def csvFields (r : Request) : List String :=
  [r.createdAt, r.name, r.description, (strTruthy r.dueDate).getD "",
   r.priority.str, r.status.str, r.devNotes,
   if r.pinned then "true" else "false"]

/-- `Array.prototype.join` with a one-character separator. -/
def joinWith (sep : Char) : List (List Char) → List Char
  | [] => []
  | [x] => x
  | x :: xs => x ++ sep :: joinWith sep xs

/-- One data line: the escaped fields joined with commas. -/
def csvLine (fields : List String) : List Char :=
  joinWith ',' (fields.map esc)

/-- `toCSV` from the source: the header line followed by one line per record,
joined with a line feed. -/
def toCSV (rows : List Request) : String :=
  ⟨joinWith '\n'
    (joinWith ',' (csvHeaders.map String.data) ::
      rows.map fun r => csvLine (csvFields r))⟩

/-! ### A standard CSV parser (RFC-4180 quoting, LF record separator)

Used to state the round-trip property of the export: split on the separator
at quote depth zero, then strip the surrounding quotes of a quoted field and
halve the doubled quotes. -/

/-- Split on `sep` outside of double quotes; `inQ` is the current quote
state.  Always returns at least one (possibly empty) token. -/
def splitTop (sep : Char) : List Char → Bool → List (List Char)
  | [], _ => [[]]
  | c :: cs, inQ =>
    if c = '"' then (splitTop sep cs (!inQ)).modifyHead (c :: ·)
    else if c = sep && !inQ then [] :: splitTop sep cs inQ
    else (splitTop sep cs inQ).modifyHead (c :: ·)

/-- Collapse doubled double quotes. -/
def unQ : List Char → List Char
  | [] => []
  | '"' :: '"' :: cs => '"' :: unQ cs
  | c :: cs => c :: unQ cs

/-- Decode one field token: strip the surrounding quotes of a quoted field
and collapse its doubled quotes; an unquoted field is itself. -/
def unescField (t : List Char) : List Char :=
  match t with
  | '"' :: cs => unQ cs.dropLast
  | _ => t

/-- Standard CSV parsing of a whole document into rows of field strings. -/
def csvParse (s : String) : List (List String) :=
  (splitTop '\n' s.data false).map fun line =>
    (splitTop ',' line false).map fun f => ⟨unescField f⟩

/-! ### The event handlers -/

/-- The compile-time remote configuration (`SHEETS_ENDPOINT`, `API_KEY`).
In the shipped source both constants are the empty string; the handlers are
modelled as functions of the configuration so that the configured-endpoint
behaviour is the behaviour of the same code with a nonempty constant. -/
structure AppConfig where
  endpoint : String
  apiKey : String

/-- Outcome of a `fetch` call as observed by the handlers: the promise either
resolves (under `mode: "no-cors"` the response is opaque and is never read),
or rejects with a network-level failure (the only case in which no readable
response was obtained). -/
inductive FetchOutcome
  | resolved
  | rejected
deriving DecidableEq

/-- The validation failures of `submitRequest` (surfaced as error toasts). -/
inductive ValidationError
  | nameRequired
  | descriptionRequired
deriving DecidableEq

/-- The form state feeding `submitRequest`. -/
structure Form where
  formName : String
  formDesc : String
  formDue : String
  formPriority : Priority

/-- The state after a submission attempt: the requests collection, the form
fields left behind, and the validation error, if any. -/
structure SubmitOut where
  requests : List Request
  formName : String
  formDesc : String
  formDue : String
  error : Option ValidationError
deriving DecidableEq

/-- The record built by `submitRequest` for a valid form.  `fid` is the fresh
`uuid()`, `nowIso` the `new Date().toISOString()` stamp.  `synced` starts as
`!SHEETS_ENDPOINT`. -/
def mkRequest (cfg : AppConfig) (fid nowIso : String) (f : Form) : Request :=
  { id := fid
    createdAt := nowIso
    name := jsTrim f.formName
    description := jsTrim f.formDesc
    dueDate := if f.formDue = "" then none else some f.formDue
    priority := f.formPriority
    status := .new
    devNotes := ""
    pinned := false
    synced := cfg.endpoint = "" }

/-- `submitRequest` from the source.  Empty trimmed name or description
aborts with a validation error and no state change.  Otherwise the new record
is prepended, the description and due-date fields are cleared (the name is
kept), and — when an endpoint is configured — the push outcome flips the new
record's `synced` flag (`fetchRes` is irrelevant when no endpoint is
configured: no fetch happens). -/
def submitRequest (cfg : AppConfig) (fid nowIso : String) (f : Form)
    (fetchRes : FetchOutcome) (reqs : List Request) : SubmitOut :=
  if jsTrim f.formName = "" then
    ⟨reqs, f.formName, f.formDesc, f.formDue, some .nameRequired⟩
  else if jsTrim f.formDesc = "" then
    ⟨reqs, f.formName, f.formDesc, f.formDue, some .descriptionRequired⟩
  else
    let newReq := mkRequest cfg fid nowIso f
    let reqs1 := newReq :: reqs
    if cfg.endpoint = "" then ⟨reqs1, f.formName, "", "", none⟩
    else
      match fetchRes with
      | .resolved =>
        ⟨reqs1.map fun r =>
          if r.id = newReq.id then { r with synced := true } else r,
         f.formName, "", "", none⟩
      | .rejected =>
        ⟨reqs1.map fun r =>
          if r.id = newReq.id then { r with synced := false } else r,
         f.formName, "", "", none⟩

/-- `retrySync` from the source: a no-op without an endpoint; on a resolved
push the record's `synced` flag is set; on a rejected push only an error
toast is raised and the collection is untouched. -/
def retrySync (cfg : AppConfig) (req : Request) (fetchRes : FetchOutcome)
    (reqs : List Request) : List Request :=
  if cfg.endpoint = "" then reqs
  else
    match fetchRes with
    | .resolved =>
      reqs.map fun r => if r.id = req.id then { r with synced := true } else r
    | .rejected => reqs

/-- What the refresh fetch produced, as observed by `refreshFromSheet`:
`netFail` covers a rejected fetch and a body that is not JSON (`res.json()`
rejects); otherwise the parsed body either has no truthy `rows` field, has a
`rows` field that is not an array, or has an array of records. -/
inductive PullResult
  | netFail
  | noRows
  | rowsNotList
  | rowsList (rs : List Request)

/-- The toast messages raised by `refreshFromSheet`. -/
inductive RefreshToast
  | noEndpoint
  | refreshFailed
  | inboxRefreshed
deriving DecidableEq

/-- `refreshFromSheet` from the source: without an endpoint, an error toast
only; on success the whole collection is replaced by the fetched rows with
`synced := true`; on any failure (network, non-JSON body, missing `rows`,
non-array `rows`) the collection is left untouched and the failure toast is
raised. -/
def refreshFromSheet (cfg : AppConfig) (res : PullResult)
    (reqs : List Request) : List Request × RefreshToast :=
  if cfg.endpoint = "" then (reqs, .noEndpoint)
  else
    match res with
    | .netFail => (reqs, .refreshFailed)
    | .noRows => (reqs, .refreshFailed)
    | .rowsNotList => (reqs, .refreshFailed)
    | .rowsList rs =>
      (rs.map fun r => { r with synced := true }, .inboxRefreshed)

/-- A partial update of the mutable fields, as passed to `updateRequest` by
the detail drawer and the quick actions (`none` = field not present in
`changes`). -/
structure Changes where
  status : Option Status
  priority : Option Priority
  devNotes : Option String
  pinned : Option Bool
  synced : Option Bool

/-- The spread `{ ...r, ...changes }`. -/
def applyChanges (r : Request) (c : Changes) : Request :=
  { r with
    status := c.status.getD r.status
    priority := c.priority.getD r.priority
    devNotes := c.devNotes.getD r.devNotes
    pinned := c.pinned.getD r.pinned
    synced := c.synced.getD r.synced }

/-- `updateRequest` from the source: map over the collection, merging the
changes into the record with the given id.  There is no error channel: an
unknown id leaves every record untouched. -/
def updateRequest (id : String) (c : Changes) (reqs : List Request) :
    List Request :=
  reqs.map fun r => if r.id = id then applyChanges r c else r

/-! ### The hydration state machine

The component state relevant to the persistence ordering: the collection,
the `hydrated` readiness flag, a log of every `localStorage.setItem` call
(`saves`), and whether the initial load effect has completed (`loaded`).
Events may arrive in any order; the claim is that the flag alone — not any
timing assumption — prevents a save before the load has been applied. -/

structure AppState where
  requests : List Request
  hydrated : Bool
  saves : List (List Request)
  loaded : Bool
deriving DecidableEq

/-- What `localStorage.getItem` + `JSON.parse` produced at mount time:
nothing stored, an unparsable or non-array value, or a parsed array. -/
inductive StoredValue
  | absent
  | unparsable
  | parsedArray (rs : List Request)

/-- The events of the component lifecycle that touch the collection or the
persistence layer. -/
inductive AppEvent
  | loadEffect (v : StoredValue)
  | persistEffect
  | mutate (f : List Request → List Request)

/-- One step of the lifecycle.  The load effect applies the parsed array (or
falls back to keeping the initial empty collection) and only then sets
`hydrated`; the persist effect saves only when `hydrated` is set; mutations
(submission, edits, sync completions) change the collection. -/
def appStep (st : AppState) : AppEvent → AppState
  | .loadEffect v =>
    { st with
      requests :=
        match v with
        | .parsedArray rs => rs
        | _ => st.requests
      hydrated := true
      loaded := true }
  | .persistEffect =>
    if st.hydrated then { st with saves := st.requests :: st.saves } else st
  | .mutate f => { st with requests := f st.requests }

/-- The initial component state: empty collection, not hydrated, nothing
saved. -/
def appInit : AppState :=
  { requests := [], hydrated := false, saves := [], loaded := false }

/-- Run a sequence of lifecycle events from the initial state. -/
def appRun (evs : List AppEvent) : AppState :=
  evs.foldl appStep appInit

/-! ### Concrete data for witnesses -/

/-- A concrete date parser for witnesses: "past" is a valid timestamp five
milliseconds before the epoch (the local day before day 0 at offset 0);
everything else is an invalid date. -/
def witnessParse : String → Option Int :=
  fun s => if s = "past" then some (-5) else none

/-- A concrete record due on the day before day 0, with status `New`. -/
def witnessRecord : Request :=
  ⟨"a", "c", "n", "d", some "past", .low, .new, "", false, true⟩

/-- A concrete record with a present but unparsable due date. -/
def witnessBad : Request :=
  ⟨"e", "c", "n", "d", some "junk", .low, .new, "", false, true⟩

/-- A concrete parser for the due-sort witness: two valid date strings. -/
def witnessDueParse : String → Option Int :=
  fun s => if s = "d1" then some 1 else if s = "d9" then some 9 else none

/-- Concrete records for the due-sort witness. -/
def witnessDueEarly : Request :=
  ⟨"e1", "c", "n", "d", some "d1", .low, .new, "", false, true⟩

def witnessDueLate : Request :=
  ⟨"l1", "c", "n", "d", some "d9", .low, .new, "", false, true⟩

def witnessDueNone : Request :=
  ⟨"n1", "c", "n", "d", none, .low, .new, "", true, true⟩

/-! ## Claims -/

/-- **C4.**  For every collection and every evaluation time (any timezone
offset, any current timestamp, any date parser), the `overdue` and `dueToday`
buckets computed by `triageBuckets` are disjoint: a record of the `overdue`
bucket is never also in the `dueToday` bucket. -/
theorem triage_overdue_dueToday_disjoint (off now : Int)
    (parse : String → Option Int) (reqs : List Request) (r : Request)
    (ho : r ∈ (triageBuckets off now parse reqs).overdue) :
    r ∉ (triageBuckets off now parse reqs).dueToday := by
  intro hd
  simp only [triageBuckets, List.mem_filter] at ho hd
  obtain ⟨-, ho⟩ := ho
  obtain ⟨-, hd⟩ := hd
  simp only [isToday] at hd
  cases hs : strTruthy r.dueDate with
  | none => rw [hs] at ho; exact Bool.false_ne_true ho
  | some s =>
    rw [hs] at ho hd
    dsimp only at ho hd
    cases hp : parse s with
    | none => rw [hp] at ho; exact Bool.false_ne_true ho
    | some t =>
      rw [hp] at ho hd
      dsimp only at ho hd
      simp only [Bool.and_eq_true, decide_eq_true_eq] at ho hd
      have hdays : localDayNumber off t =
          localDayNumber off (startOfToday off now) := by
        have := civilFromDays_inj (z := localDayNumber off t)
          (w := localDayNumber off (startOfToday off now))
        exact this hd
      have hlt := ho.1
      simp only [localDayNumber, startOfToday] at hdays hlt
      omega

/-- **C10.**  A record whose `dueDate` is present (a truthy string) but does
not parse as a valid date is placed by `triageBuckets` in neither the
`overdue` nor the `dueToday` bucket. -/
theorem triage_invalid_dueDate_in_no_bucket (off now : Int)
    (parse : String → Option Int) (reqs : List Request) (r : Request)
    (s : String) (hdue : r.dueDate = some s) (hne : s ≠ "")
    (hbad : parse s = none) :
    r ∉ (triageBuckets off now parse reqs).overdue ∧
      r ∉ (triageBuckets off now parse reqs).dueToday := by
  have hs : strTruthy r.dueDate = some s := by
    simp [strTruthy, hdue, hne]
  constructor
  · intro hmem
    simp only [triageBuckets, List.mem_filter] at hmem
    obtain ⟨-, hmem⟩ := hmem
    rw [hs] at hmem
    dsimp only at hmem
    rw [hbad] at hmem
    exact Bool.false_ne_true hmem
  · intro hmem
    simp only [triageBuckets, List.mem_filter, isToday] at hmem
    obtain ⟨-, hmem⟩ := hmem
    rw [hs] at hmem
    dsimp only at hmem
    rw [hbad] at hmem
    exact Bool.false_ne_true hmem

/-- Witness for C4 at a concrete input: with offset 0, a "now" inside day 0,
and a parser sending the string "past" to a timestamp of the previous day,
a record due "past" is in the `overdue` bucket, hence (by the theorem) not in
`dueToday`. -/
theorem triage_overdue_dueToday_disjoint_witness :
    witnessRecord ∈
        (triageBuckets 0 1200000 witnessParse [witnessRecord]).overdue ∧
      witnessRecord ∉
        (triageBuckets 0 1200000 witnessParse [witnessRecord]).dueToday :=
  ⟨by decide,
   triage_overdue_dueToday_disjoint 0 1200000 witnessParse [witnessRecord]
     witnessRecord (by decide)⟩

/-- Witness for C10 at a concrete input. -/
theorem triage_invalid_dueDate_in_no_bucket_witness :
    witnessBad.dueDate = some "junk" ∧
      witnessBad ∉
          (triageBuckets 0 1200000 witnessParse [witnessBad]).overdue ∧
        witnessBad ∉
          (triageBuckets 0 1200000 witnessParse [witnessBad]).dueToday :=
  ⟨rfl,
   triage_invalid_dueDate_in_no_bucket 0 1200000 witnessParse [witnessBad]
     witnessBad "junk" rfl (by decide) rfl⟩

/-- **C3.**  A submission whose name or description is empty after trimming
whitespace fails with a validation error reported to the caller, and the
whole state is left unchanged: the collection is exactly the previous
collection and the form fields are untouched. -/
theorem submitRequest_empty_field_validation (cfg : AppConfig)
    (fid nowIso : String) (f : Form) (fetchRes : FetchOutcome)
    (reqs : List Request)
    (h : jsTrim f.formName = "" ∨ jsTrim f.formDesc = "") :
    (submitRequest cfg fid nowIso f fetchRes reqs).requests = reqs ∧
      (submitRequest cfg fid nowIso f fetchRes reqs).error.isSome = true ∧
      (submitRequest cfg fid nowIso f fetchRes reqs).formName = f.formName ∧
      (submitRequest cfg fid nowIso f fetchRes reqs).formDesc = f.formDesc ∧
      (submitRequest cfg fid nowIso f fetchRes reqs).formDue = f.formDue := by
  by_cases hn : jsTrim f.formName = ""
  · simp [submitRequest, hn]
  · have hd : jsTrim f.formDesc = "" := h.resolve_left hn
    simp [submitRequest, hn, hd]

/-- Witness for C3: a form whose name is all blanks is rejected and the
collection (here a one-record collection) is unchanged. -/
theorem submitRequest_empty_field_validation_witness :
    jsTrim "  " = "" ∧
      (submitRequest ⟨"", ""⟩ "f1" "now" ⟨"  ", "desc", "", .normal⟩
          .resolved [witnessBad]).requests = [witnessBad] ∧
      (submitRequest ⟨"", ""⟩ "f1" "now" ⟨"  ", "desc", "", .normal⟩
          .resolved [witnessBad]).error.isSome = true :=
  ⟨by decide,
   (submitRequest_empty_field_validation ⟨"", ""⟩ "f1" "now"
      ⟨"  ", "desc", "", .normal⟩ .resolved [witnessBad]
      (Or.inl (by decide))).1,
   (submitRequest_empty_field_validation ⟨"", ""⟩ "f1" "now"
      ⟨"  ", "desc", "", .normal⟩ .resolved [witnessBad]
      (Or.inl (by decide))).2.1⟩

/-- **C6.**  With a configured endpoint, a pull whose fetch fails at the
network level (or whose body is not JSON), whose body has no `rows` field,
or whose `rows` field is not a list, leaves the local collection completely
unchanged and surfaces the refresh-failure notification. -/
theorem refreshFromSheet_failure_unchanged (cfg : AppConfig)
    (reqs : List Request) (hep : cfg.endpoint ≠ "") :
    refreshFromSheet cfg .netFail reqs = (reqs, .refreshFailed) ∧
      refreshFromSheet cfg .noRows reqs = (reqs, .refreshFailed) ∧
      refreshFromSheet cfg .rowsNotList reqs = (reqs, .refreshFailed) := by
  simp [refreshFromSheet, hep]

/-- Witness for C6 at a concrete configuration and collection. -/
theorem refreshFromSheet_failure_unchanged_witness :
    (⟨"https://sheet", ""⟩ : AppConfig).endpoint ≠ "" ∧
      refreshFromSheet ⟨"https://sheet", ""⟩ .rowsNotList [witnessBad] =
        ([witnessBad], .refreshFailed) :=
  ⟨by decide,
   (refreshFromSheet_failure_unchanged ⟨"https://sheet", ""⟩ [witnessBad]
      (by decide)).2.2⟩

/-- **C7.**  `updateRequest` with an id that matches no record of the
collection is a silent no-op: the collection is returned unchanged (the
function has no error channel at all). -/
theorem updateRequest_unknown_id_noop (id : String) (c : Changes)
    (reqs : List Request) (h : ∀ r ∈ reqs, r.id ≠ id) :
    updateRequest id c reqs = reqs := by
  induction reqs with
  | nil => rfl
  | cons a l ih =>
    simp only [updateRequest, List.map_cons]
    rw [if_neg (h a (List.mem_cons_self a l))]
    have := ih fun r hr => h r (List.mem_cons_of_mem a hr)
    simp only [updateRequest] at this
    rw [this]

/-- Witness for C7: updating a missing id on a one-record collection returns
the collection unchanged. -/
theorem updateRequest_unknown_id_noop_witness :
    updateRequest "missing" ⟨some .done, none, none, none, none⟩
        [witnessBad] = [witnessBad] :=
  updateRequest_unknown_id_noop "missing" ⟨some .done, none, none, none, none⟩
    [witnessBad] (by decide)

/-- **C2.**  With a configured endpoint, a push whose fetch rejects (a
network-level failure — under `mode: "no-cors"` every response is opaque, so
a rejection is precisely the case where no readable response was obtained)
is treated as a sync failure: after a failed submission push the new record
(the record carrying the fresh id) has `synced = false`, and after a failed
manual retry the collection is unchanged, so a record that was unsynced
stays `synced = false`. -/
theorem push_failure_marks_unsynced (cfg : AppConfig) (fid nowIso : String)
    (f : Form) (reqs : List Request) (req : Request)
    (hep : cfg.endpoint ≠ "") (hn : jsTrim f.formName ≠ "")
    (hd : jsTrim f.formDesc ≠ "") :
    (∀ r ∈ (submitRequest cfg fid nowIso f .rejected reqs).requests,
        r.id = fid → r.synced = false) ∧
      retrySync cfg req .rejected reqs = reqs ∧
      ((∀ r ∈ reqs, r.id = req.id → r.synced = false) →
        ∀ r ∈ retrySync cfg req .rejected reqs,
          r.id = req.id → r.synced = false) := by
  refine ⟨?_, ?_, ?_⟩
  · intro r hr hrid
    simp only [submitRequest, if_neg hn, if_neg hd, if_neg hep] at hr
    rw [List.mem_map] at hr
    obtain ⟨x, -, rfl⟩ := hr
    by_cases hx : x.id = (mkRequest cfg fid nowIso f).id
    · rw [if_pos hx]
    · rw [if_neg hx] at hrid ⊢
      exact absurd (hrid.trans rfl) hx
  · simp [retrySync, hep]
  · intro hall r hr
    simp only [retrySync, if_neg hep] at hr
    exact hall r hr

/-- Witness for C2: a concrete configured endpoint, a valid form whose push
is rejected (the new record ends up `synced = false`), and a rejected retry
on an unsynced record (which stays unsynced). -/
theorem push_failure_marks_unsynced_witness :
    (∀ r ∈ (submitRequest ⟨"https://sheet", ""⟩ "f1" "now"
        ⟨"Alice", "Bracket", "", .high⟩ .rejected []).requests,
      r.id = "f1" → r.synced = false) ∧
      retrySync ⟨"https://sheet", ""⟩ witnessBad .rejected [witnessBad] =
        [witnessBad] :=
  ⟨(push_failure_marks_unsynced ⟨"https://sheet", ""⟩ "f1" "now"
      ⟨"Alice", "Bracket", "", .high⟩ [] witnessBad (by decide) (by decide)
      (by decide)).1,
   (push_failure_marks_unsynced ⟨"https://sheet", ""⟩ "f1" "now"
      ⟨"Alice", "Bracket", "", .high⟩ [witnessBad] witnessBad (by decide)
      (by decide) (by decide)).2.1⟩

/-- **C9.**  In every execution — every sequence of lifecycle events in
every order — a save of the collection to local persistence only ever
happens after the load effect has completed (and applied its result or the
empty-collection fallback): the readiness flag, not timing, enforces the
ordering.  If any save has been logged, the load has completed. -/
theorem no_save_before_load (evs : List AppEvent)
    (h : (appRun evs).saves ≠ []) : (appRun evs).loaded = true := by
  suffices hInv : ∀ (st : AppState), (st.hydrated = true → st.loaded = true) →
      (st.saves ≠ [] → st.loaded = true) →
      ((evs.foldl appStep st).hydrated = true →
        (evs.foldl appStep st).loaded = true) ∧
      ((evs.foldl appStep st).saves ≠ [] →
        (evs.foldl appStep st).loaded = true) by
    exact (hInv appInit (by intro h; cases h) (by intro h; cases h rfl)).2 h
  clear h
  induction evs with
  | nil => intro st h1 h2; exact ⟨h1, h2⟩
  | cons e rest ih =>
    intro st h1 h2
    simp only [List.foldl_cons]
    rcases e with v | _ | f
    · exact ih _ (fun _ => rfl) (fun _ => rfl)
    · simp only [appStep]
      by_cases hh : st.hydrated = true
      · rw [if_pos hh]
        exact ih _ (fun _ => h1 hh) (fun _ => h1 hh)
      · rw [if_neg hh]
        exact ih st h1 h2
    · exact ih _ h1 h2

/-- Witness for C9: a run in which the load effect fires and then a persist
effect logs a save; the logged save is nonempty and the theorem applies. -/
theorem no_save_before_load_witness :
    (appRun [.loadEffect .absent, .persistEffect]).saves ≠ [] ∧
      (appRun [.loadEffect .absent, .persistEffect]).loaded = true :=
  ⟨by decide, no_save_before_load [.loadEffect .absent, .persistEffect]
    (by decide)⟩

/-! ### The pinned-first invariant of the sort (claim C1) -/

/-- "`a` may precede `b` in a pinned-first list": if the later element is
pinned, so is the earlier one.  A list is pairwise in this relation exactly
when every pinned record precedes every unpinned record. -/
def pinnedBefore (a b : Request) : Prop :=
  b.pinned = true → a.pinned = true

theorem sortLe_of_pin {parse : String → Option Int} {key : SortKey}
    {a b : Request} (ha : a.pinned = true) (hb : b.pinned = false) :
    sortLe parse key a b = true := by
  simp [sortLe, sortCmp, ha, hb, leOfCmp]

theorem sortLe_of_unpin {parse : String → Option Int} {key : SortKey}
    {a b : Request} (ha : a.pinned = false) (hb : b.pinned = true) :
    sortLe parse key a b = false := by
  simp [sortLe, sortCmp, ha, hb, leOfCmp]

theorem mem_insertBy {le : Request → Request → Bool} {a c : Request} :
    ∀ {l : List Request}, c ∈ insertBy le a l → c = a ∨ c ∈ l := by
  intro l
  induction l with
  | nil => intro h; simp only [insertBy, List.mem_singleton] at h; exact .inl h
  | cons b l ih =>
    intro h
    simp only [insertBy] at h
    by_cases hle : le a b = true
    · rw [if_pos hle] at h
      rcases List.mem_cons.1 h with h | h
      · exact .inl h
      · exact .inr h
    · rw [if_neg hle] at h
      rcases List.mem_cons.1 h with h | h
      · exact .inr (h ▸ List.mem_cons_self b l)
      · rcases ih h with h | h
        · exact .inl h
        · exact .inr (List.mem_cons_of_mem b h)

theorem insertBy_pairwise_pin {parse : String → Option Int} {key : SortKey}
    (a : Request) :
    ∀ (l : List Request), l.Pairwise pinnedBefore →
      (insertBy (sortLe parse key) a l).Pairwise pinnedBefore := by
  intro l
  induction l with
  | nil => intro _; exact List.pairwise_singleton _ a
  | cons b l ih =>
    intro hp
    rw [List.pairwise_cons] at hp
    obtain ⟨hb, hl⟩ := hp
    simp only [insertBy]
    by_cases hle : sortLe parse key a b = true
    · rw [if_pos hle]
      refine List.Pairwise.cons ?_ (List.Pairwise.cons hb hl)
      intro c hc hcp
      cases hA : a.pinned with
      | true => rfl
      | false =>
        exfalso
        rcases List.mem_cons.1 hc with rfl | hc
        · rw [sortLe_of_unpin hA hcp] at hle
          exact Bool.false_ne_true hle
        · have hbp : b.pinned = true := hb c hc hcp
          rw [sortLe_of_unpin hA hbp] at hle
          exact Bool.false_ne_true hle
    · rw [if_neg hle]
      refine List.Pairwise.cons ?_ (ih hl)
      intro c hc hcp
      rcases mem_insertBy hc with rfl | hc
      · cases hB : b.pinned with
        | true => rfl
        | false =>
          exfalso
          rw [sortLe_of_pin hcp hB] at hle
          exact hle rfl
      · exact hb c hc hcp

theorem sortRequests_pairwise_pin (parse : String → Option Int)
    (key : SortKey) (reqs : List Request) :
    (sortRequests parse reqs key).Pairwise pinnedBefore := by
  induction reqs with
  | nil => exact List.Pairwise.nil
  | cons a l ih => exact insertBy_pairwise_pin a _ ih

/-- **C1.**  For every collection, every filter specification, every date
parser and every sort key, in the output of the query pipeline every pinned
record precedes every unpinned record: whenever a later record is pinned,
every earlier record is pinned too (the pinned/unpinned split is the primary
sort key, decided before any other comparator). -/
theorem query_pinned_precede_unpinned (parse : String → Option Int)
    (spec : FilterSpec) (key : SortKey) (reqs : List Request) :
    (query parse spec key reqs).Pairwise pinnedBefore :=
  sortRequests_pairwise_pin parse key (reqs.filter (matchesFilter spec))

/-! ### The due-date ordering of the sort (claim C5) -/

/-- The due-date sort key of a record as an optional timestamp: `none` for an
absent due date (for a record of the data model, whose present due dates are
valid). -/
def dueKey (parse : String → Option Int) (r : Request) : Option Int :=
  (strTruthy r.dueDate).bind parse

/-- The ascending order on due keys, `none` (no due date) last. -/
def keyLeB : Option Int → Option Int → Bool
  | _, none => true
  | none, some _ => false
  | some a, some b => decide (a ≤ b)

/-- A record of the data model: its due date, when present (truthy), parses
as a valid date. -/
def ValidDue (parse : String → Option Int) (r : Request) : Prop :=
  ∀ s, strTruthy r.dueDate = some s → (parse s).isSome = true

/-- The `JSNum` value of a due key. -/
def jsOfKey : Option Int → JSNum
  | none => .inf
  | some t => .num t

theorem dueTime_eq_jsOfKey {parse : String → Option Int} {r : Request}
    (h : ValidDue parse r) : dueTime parse r = jsOfKey (dueKey parse r) := by
  unfold dueTime dueKey
  cases hs : strTruthy r.dueDate with
  | none => rfl
  | some s =>
    have := h s hs
    cases hp : parse s with
    | none => rw [hp] at this; exact absurd this (by simp)
    | some t => simp [getTime, hp, jsOfKey]

theorem leOfCmp_jsSub_jsOfKey (ka kb : Option Int) :
    leOfCmp (jsSub (jsOfKey ka) (jsOfKey kb)) = keyLeB ka kb := by
  cases ka with
  | none => cases kb <;> rfl
  | some a =>
    cases kb with
    | none => rfl
    | some b =>
      simp only [jsOfKey, jsSub, leOfCmp, keyLeB]
      by_cases h : a ≤ b
      · rw [decide_eq_true (by omega : a - b ≤ 0), decide_eq_true h]
      · rw [decide_eq_false (by omega : ¬a - b ≤ 0), decide_eq_false h]

theorem leOfCmp_num_negone : leOfCmp (.num (-1)) = true := rfl

theorem leOfCmp_num_one : leOfCmp (.num 1) = false := rfl

/-- On records of the data model the `due` comparator order is the
lexicographic order: pinned first, then ascending due key. -/
theorem sortLe_due_char {parse : String → Option Int} {a b : Request}
    (ha : ValidDue parse a) (hb : ValidDue parse b) :
    sortLe parse .due a b = true ↔
      (a.pinned = true ∧ b.pinned = false) ∨
        (a.pinned = b.pinned ∧ keyLeB (dueKey parse a) (dueKey parse b) = true)
    := by
  cases hA : a.pinned <;> cases hB : b.pinned <;>
    simp [sortLe, sortCmp, hA, hB, dueTime_eq_jsOfKey ha,
      dueTime_eq_jsOfKey hb, leOfCmp_jsSub_jsOfKey, leOfCmp_num_negone,
      leOfCmp_num_one]

theorem keyLeB_total (x y : Option Int) (h : keyLeB x y = false) :
    keyLeB y x = true := by
  cases x <;> cases y
  all_goals try simp_all [keyLeB]
  all_goals omega

theorem keyLeB_trans {x y z : Option Int} (h1 : keyLeB x y = true)
    (h2 : keyLeB y z = true) : keyLeB x z = true := by
  cases x <;> cases y <;> cases z
  all_goals try simp_all [keyLeB]
  all_goals omega

theorem sortLe_due_total {parse : String → Option Int} {a b : Request}
    (ha : ValidDue parse a) (hb : ValidDue parse b)
    (h : sortLe parse .due a b = false) : sortLe parse .due b a = true := by
  rw [sortLe_due_char hb ha]
  rw [← Bool.not_eq_true, sortLe_due_char ha hb] at h
  push_neg at h
  obtain ⟨h1, h2⟩ := h
  by_cases hA : a.pinned = true <;> by_cases hB : b.pinned = true
  · exact .inr ⟨hB.trans hA.symm,
      keyLeB_total _ _ (by simpa using h2 (hA.trans hB.symm))⟩
  · exact (h1 hA (by simpa using hB)).elim
  · exact .inl ⟨hB, by simpa using hA⟩
  · have hA2 : a.pinned = false := by simpa using hA
    have hB2 : b.pinned = false := by simpa using hB
    exact .inr ⟨hB2.trans hA2.symm,
      keyLeB_total _ _ (by simpa using h2 (hA2.trans hB2.symm))⟩

theorem sortLe_due_trans {parse : String → Option Int} {a b c : Request}
    (ha : ValidDue parse a) (hb : ValidDue parse b) (hc : ValidDue parse c)
    (h1 : sortLe parse .due a b = true) (h2 : sortLe parse .due b c = true) :
    sortLe parse .due a c = true := by
  rw [sortLe_due_char ha hb] at h1
  rw [sortLe_due_char hb hc] at h2
  rw [sortLe_due_char ha hc]
  rcases h1 with ⟨ha1, hb1⟩ | ⟨hab, hk1⟩
  · rcases h2 with ⟨hb2, hc2⟩ | ⟨hbc, hk2⟩
    · rw [hb1] at hb2; exact absurd hb2 (by simp)
    · exact .inl ⟨ha1, hbc ▸ hb1⟩
  · rcases h2 with ⟨hb2, hc2⟩ | ⟨hbc, hk2⟩
    · exact .inl ⟨hab.trans hb2, hc2⟩
    · exact .inr ⟨hab.trans hbc, keyLeB_trans hk1 hk2⟩

/-- Stable insertion preserves sortedness with respect to a comparator order
that is total and transitive on the elements involved. -/
theorem insertBy_pairwise_le {le : Request → Request → Bool}
    {S : Request → Prop}
    (htot : ∀ x y, S x → S y → le x y = false → le y x = true)
    (htrans : ∀ x y z, S x → S y → S z → le x y = true → le y z = true →
      le x z = true)
    (a : Request) (hSa : S a) :
    ∀ (l : List Request), (∀ x ∈ l, S x) →
      l.Pairwise (fun x y => le x y = true) →
      (insertBy le a l).Pairwise (fun x y => le x y = true) := by
  intro l
  induction l with
  | nil => intro _ _; exact List.pairwise_singleton _ a
  | cons b l ih =>
    intro hS hp
    rw [List.pairwise_cons] at hp
    obtain ⟨hb, hl⟩ := hp
    have hSb : S b := hS b (List.mem_cons_self b l)
    have hSl : ∀ x ∈ l, S x := fun x hx => hS x (List.mem_cons_of_mem b hx)
    simp only [insertBy]
    by_cases hle : le a b = true
    · rw [if_pos hle]
      refine List.Pairwise.cons ?_ (List.Pairwise.cons hb hl)
      intro c hc
      rcases List.mem_cons.1 hc with rfl | hc
      · exact hle
      · exact htrans a b c hSa hSb (hSl c hc) hle (hb c hc)
    · rw [if_neg hle]
      refine List.Pairwise.cons ?_ (ih hSl hl)
      intro c hc
      rcases mem_insertBy hc with rfl | hc
      · exact htot c b hSa hSb (Bool.not_eq_true _ ▸ hle)
      · exact hb c hc

theorem mem_foldr_insertBy {le : Request → Request → Bool} {c : Request} :
    ∀ {l : List Request}, c ∈ l.foldr (insertBy le) [] → c ∈ l := by
  intro l
  induction l with
  | nil => intro h; exact absurd h (List.not_mem_nil c)
  | cons a l ih =>
    intro h
    rcases mem_insertBy h with rfl | h
    · exact List.mem_cons_self c l
    · exact List.mem_cons_of_mem a (ih h)

theorem sortRequests_due_pairwise_le (parse : String → Option Int)
    (reqs : List Request) (hval : ∀ r ∈ reqs, ValidDue parse r) :
    (sortRequests parse reqs .due).Pairwise
      (fun x y => sortLe parse .due x y = true) := by
  unfold sortRequests
  induction reqs with
  | nil => exact List.Pairwise.nil
  | cons a l ih =>
    have hSl : ∀ r ∈ l, ValidDue parse r :=
      fun r hr => hval r (List.mem_cons_of_mem a hr)
    exact @insertBy_pairwise_le (sortLe parse .due) (ValidDue parse)
      (fun x y hx hy => sortLe_due_total hx hy)
      (fun x y z hx hy hz => sortLe_due_trans hx hy hz)
      a (hval a (List.mem_cons_self a l)) _
      (fun x hx => hSl x (mem_foldr_insertBy hx)) (ih hSl)

/-- **C5.**  For every collection of data-model records (present due dates
parse as valid dates) sorted with the `due` key, within each pinned/unpinned
partition the records are ordered by ascending due date, and within each
partition every record with an absent due date comes after every record with
a present one: for any earlier/later pair with equal pinned flags, the
earlier due key is at most the later one, and if the earlier record has no
due date (key `none`, "infinitely far in the future") then neither has the
later one. -/
theorem sortRequests_due_ordered (parse : String → Option Int)
    (reqs : List Request) (hval : ∀ r ∈ reqs, ValidDue parse r) :
    (sortRequests parse reqs .due).Pairwise
      (fun a b => a.pinned = b.pinned →
        keyLeB (dueKey parse a) (dueKey parse b) = true ∧
          (dueKey parse a = none → dueKey parse b = none)) := by
  have hmem : ∀ r ∈ sortRequests parse reqs .due, ValidDue parse r :=
    fun r hr => hval r (mem_foldr_insertBy hr)
  refine List.Pairwise.imp_of_mem ?_
    (sortRequests_due_pairwise_le parse reqs hval)
  intro a b hamem hbmem hle hpin
  rw [sortLe_due_char (hmem a hamem) (hmem b hbmem)] at hle
  rcases hle with ⟨h1, h2⟩ | ⟨-, hk⟩
  · rw [hpin] at h1; exact absurd (h1.symm.trans h2) (by simp)
  · refine ⟨hk, ?_⟩
    intro hna
    rw [hna] at hk
    cases hkb : dueKey parse b with
    | none => rfl
    | some t => rw [hkb] at hk; exact absurd hk (by simp [keyLeB])

/-- Witness for C5: a concrete collection (pinned and unpinned records, with
and without due dates, all present dates valid) whose `due` sort satisfies
the partition-wise ordering. -/
theorem sortRequests_due_ordered_witness :
    (∀ r ∈ [witnessDueLate, witnessDueNone, witnessDueEarly],
        ValidDue witnessDueParse r) ∧
      (sortRequests witnessDueParse
          [witnessDueLate, witnessDueNone, witnessDueEarly] .due).Pairwise
        (fun a b => a.pinned = b.pinned →
          keyLeB (dueKey witnessDueParse a) (dueKey witnessDueParse b) = true ∧
            (dueKey witnessDueParse a = none →
              dueKey witnessDueParse b = none)) := by
  have hv : ∀ r ∈ [witnessDueLate, witnessDueNone, witnessDueEarly],
      ValidDue witnessDueParse r := by
    intro r hr s hs
    fin_cases hr
    · rw [show strTruthy witnessDueLate.dueDate = some "d9" from rfl] at hs
      injection hs with h
      subst h
      decide
    · rw [show strTruthy witnessDueNone.dueDate = none from rfl] at hs
      cases hs
    · rw [show strTruthy witnessDueEarly.dueDate = some "d1" from rfl] at hs
      injection hs with h
      subst h
      decide
  exact ⟨hv, sortRequests_due_ordered witnessDueParse
    [witnessDueLate, witnessDueNone, witnessDueEarly] hv⟩

/-! ### CSV round-trip (claim C8)

The proof tracks the quote parity of a character list (`qstate`) and whether
a separator occurs at quote depth zero (`noTop`): the quote-aware splitter
passes over a balanced separator-free token in one piece. -/

/-- Quote parity after processing a character list from state `b`. -/
def qstate : List Char → Bool → Bool
  | [], b => b
  | c :: cs, b => qstate cs (if c = '"' then !b else b)

/-- No occurrence of `sep` at quote depth zero, starting in state `b`. -/
def noTop (sep : Char) : List Char → Bool → Bool
  | [], _ => true
  | c :: cs, b =>
    if c = '"' then noTop sep cs (!b)
    else if c = sep && !b then false
    else noTop sep cs b

theorem modifyHead_modifyHead (f g : List Char → List Char) :
    ∀ l : List (List Char),
      (l.modifyHead g).modifyHead f = l.modifyHead (fun x => f (g x))
  | [] => rfl
  | _ :: _ => rfl

theorem qstate_append (l m : List Char) (b : Bool) :
    qstate (l ++ m) b = qstate m (qstate l b) := by
  induction l generalizing b with
  | nil => rfl
  | cons c cs ih =>
    simp only [List.cons_append, qstate, List.append_eq, ih]

theorem noTop_append {sep : Char} {l m : List Char} {b : Bool}
    (hl : noTop sep l b = true) (hm : noTop sep m (qstate l b) = true) :
    noTop sep (l ++ m) b = true := by
  induction l generalizing b with
  | nil => exact hm
  | cons c cs ih =>
    simp only [List.cons_append, noTop] at hl ⊢
    simp only [qstate] at hm
    by_cases hq : c = '"'
    · rw [if_pos hq] at hl ⊢
      rw [if_pos hq] at hm
      exact ih hl hm
    · rw [if_neg hq] at hl ⊢
      rw [if_neg hq] at hm
      by_cases hs : (c = sep && !b) = true
      · rw [if_pos hs] at hl; exact absurd hl (by simp)
      · rw [if_neg hs] at hl ⊢
        exact ih hl hm

/-- The splitter passes over a separator-free token: splitting `t ++ rest`
prepends `t` to the head of the split of `rest` (in the parity state left by
`t`). -/
theorem splitTop_append (sep : Char) (t rest : List Char) (b : Bool)
    (h : noTop sep t b = true) :
    splitTop sep (t ++ rest) b =
      (splitTop sep rest (qstate t b)).modifyHead (t ++ ·) := by
  induction t generalizing b with
  | nil =>
    simp only [List.nil_append, qstate]
    have hid : ∀ l : List (List Char), l.modifyHead (fun x => x) = l := by
      intro l
      cases l <;> rfl
    rw [hid]
  | cons c cs ih =>
    simp only [List.cons_append, splitTop, qstate, List.append_eq]
    simp only [noTop] at h
    by_cases hq : c = '"'
    · rw [if_pos hq] at h ⊢
      rw [ih (!b) h, modifyHead_modifyHead, if_pos hq]
    · rw [if_neg hq] at h ⊢
      by_cases hs : (c = sep && !b) = true
      · rw [if_pos hs] at h
        exact absurd h (by simp)
      · rw [if_neg hs] at h ⊢
        rw [ih b h, modifyHead_modifyHead, if_neg hq]

/-- Splitting a balanced, separator-free token alone gives the one-token
list. -/
theorem splitTop_single (sep : Char) (t : List Char)
    (h : noTop sep t false = true) :
    splitTop sep t false = [t] := by
  have := splitTop_append sep t [] false h
  rw [List.append_nil] at this
  rw [this]
  simp [splitTop, List.modifyHead]

/-- Splitting a token, a separator and a remainder starts with the token,
provided the token is balanced and separator-free and the separator is not a
quote. -/
theorem splitTop_cons (sep : Char) (hsep : sep ≠ '"') (t rest : List Char)
    (hn : noTop sep t false = true) (hq : qstate t false = false) :
    splitTop sep (t ++ sep :: rest) false = t :: splitTop sep rest false := by
  rw [splitTop_append sep t (sep :: rest) false hn, hq]
  simp only [splitTop, if_neg hsep]
  rw [if_pos (by simp)]
  simp [List.modifyHead]

/-- Splitting a separator-join of balanced, separator-free tokens recovers
the tokens. -/
theorem splitTop_joinWith (sep : Char) (hsep : sep ≠ '"') :
    ∀ (ts : List (List Char)), ts ≠ [] →
      (∀ t ∈ ts, noTop sep t false = true ∧ qstate t false = false) →
      splitTop sep (joinWith sep ts) false = ts := by
  intro ts
  induction ts with
  | nil => intro h; exact absurd rfl h
  | cons x ts ih =>
    intro hne hall
    cases ts with
    | nil =>
      show splitTop sep (joinWith sep [x]) false = [x]
      exact splitTop_single sep x (hall x (List.mem_cons_self x [])).1
    | cons y ts2 =>
      show splitTop sep (x ++ sep :: joinWith sep (y :: ts2)) false = _
      rw [splitTop_cons sep hsep x _ (hall x (List.mem_cons_self _ _)).1
        (hall x (List.mem_cons_self _ _)).2]
      rw [ih (by simp) (fun t ht => hall t (List.mem_cons_of_mem x ht))]

theorem qstate_no_quote {l : List Char} (h : ∀ c ∈ l, c ≠ '"') :
    ∀ b, qstate l b = b := by
  induction l with
  | nil => intro b; rfl
  | cons c cs ih =>
    intro b
    simp only [qstate]
    rw [if_neg (h c (List.mem_cons_self c cs))]
    exact ih (fun x hx => h x (List.mem_cons_of_mem c hx)) b

theorem qstate_escQ (u : List Char) : ∀ b, qstate (escQ u) b = b := by
  induction u with
  | nil => intro b; rfl
  | cons c cs ih =>
    intro b
    simp only [escQ]
    by_cases hq : c = '"'
    · rw [if_pos hq]
      simp [qstate, ih]
    · rw [if_neg hq]
      simp only [qstate]
      rw [if_neg hq]
      exact ih b

theorem noTop_no_quote_no_sep {sep : Char} {l : List Char}
    (h : ∀ c ∈ l, c ≠ '"' ∧ c ≠ sep) : ∀ b, noTop sep l b = true := by
  induction l with
  | nil => intro b; rfl
  | cons c cs ih =>
    intro b
    obtain ⟨h1, h2⟩ := h c (List.mem_cons_self c cs)
    simp only [noTop]
    rw [if_neg h1, if_neg (by simp [h2])]
    exact ih (fun x hx => h x (List.mem_cons_of_mem c hx)) b

theorem noTop_escQ (sep : Char) (u : List Char) :
    noTop sep (escQ u) true = true := by
  induction u with
  | nil => rfl
  | cons c cs ih =>
    simp only [escQ]
    by_cases hq : c = '"'
    · rw [if_pos hq]
      simp only [noTop, if_pos rfl, Bool.not_true, Bool.not_false]
      exact ih
    · rw [if_neg hq]
      simp only [noTop]
      rw [if_neg hq, if_neg (by simp)]
      exact ih

/-- The characters of a field that needs no quoting. -/
theorem not_needsQuote_chars {s : String} (h : needsQuote s.data = false) :
    ∀ c ∈ s.data, c ≠ ',' ∧ c ≠ '"' ∧ c ≠ '\n' := by
  intro c hc
  simp only [needsQuote, List.any_eq_false] at h
  have := h c hc
  simp only [Bool.or_eq_true, decide_eq_true_eq, not_or] at this
  exact ⟨this.1.1, this.1.2, this.2⟩

/-- An escaped field is balanced and free of top-level commas and
newlines. -/
theorem esc_props (sep : Char) (hsep : sep = ',' ∨ sep = '\n') (s : String) :
    noTop sep (esc s) false = true ∧ qstate (esc s) false = false := by
  unfold esc
  by_cases hq : needsQuote s.data = true
  · rw [if_pos hq]
    constructor
    · show noTop sep ('"' :: (escQ s.data ++ ['"'])) false = true
      simp only [noTop, if_pos rfl, Bool.not_false]
      refine noTop_append (noTop_escQ sep s.data) ?_
      rw [qstate_escQ]
      have : sep ≠ '"' := by rcases hsep with rfl | rfl <;> decide
      simp [noTop, this]
    · show qstate ('"' :: (escQ s.data ++ ['"'])) false = false
      simp only [qstate, if_pos rfl, Bool.not_false]
      rw [qstate_append, qstate_escQ]
      rfl
  · rw [if_neg hq]
    have hch := not_needsQuote_chars (by simpa using hq)
    constructor
    · refine noTop_no_quote_no_sep ?_ false
      intro c hc
      obtain ⟨h1, h2, h3⟩ := hch c hc
      exact ⟨h2, by rcases hsep with rfl | rfl <;> assumption⟩
    · exact qstate_no_quote (fun c hc => (hch c hc).2.1) false

/-- A comma-join of escaped fields is balanced and free of top-level
newlines. -/
theorem csvLine_props (fields : List String) :
    noTop '\n' (csvLine fields) false = true ∧
      qstate (csvLine fields) false = false := by
  unfold csvLine
  induction fields with
  | nil => exact ⟨rfl, rfl⟩
  | cons x fs ih =>
    cases fs with
    | nil =>
      show noTop '\n' (esc x) false = true ∧ qstate (esc x) false = false
      exact esc_props '\n' (.inr rfl) x
    | cons y fs2 =>
      show noTop '\n' (esc x ++ ',' :: joinWith ',' ((y :: fs2).map esc))
            false = true ∧
          qstate (esc x ++ ',' :: joinWith ',' ((y :: fs2).map esc)) false =
            false
      obtain ⟨hx1, hx2⟩ := esc_props '\n' (.inr rfl) x
      obtain ⟨hr1, hr2⟩ := ih
      constructor
      · refine noTop_append hx1 ?_
        rw [hx2]
        simp only [noTop]
        rw [if_neg (by decide), if_neg (by decide)]
        exact hr1
      · rw [qstate_append, hx2]
        simp only [qstate]
        rw [if_neg (by decide)]
        exact hr2

theorem unQ_cons_ne {c : Char} (l : List Char) (h : c ≠ '"') :
    unQ (c :: l) = c :: unQ l := by
  cases l with
  | nil => simp [unQ, h]
  | cons d l2 => simp [unQ, h]

theorem unQ_escQ : ∀ u : List Char, unQ (escQ u) = u := by
  intro u
  induction u with
  | nil => rfl
  | cons c cs ih =>
    by_cases hq : c = '"'
    · subst hq
      show unQ (escQ ('"' :: cs)) = '"' :: cs
      simp only [escQ, if_pos rfl]
      show unQ ('"' :: '"' :: escQ cs) = '"' :: cs
      simp only [unQ]
      rw [ih]
    · simp only [escQ]
      rw [if_neg hq, unQ_cons_ne _ hq, ih]

theorem unescField_esc (s : String) : unescField (esc s) = s.data := by
  unfold esc
  by_cases hq : needsQuote s.data = true
  · rw [if_pos hq]
    show unescField ('"' :: (escQ s.data ++ ['"'])) = s.data
    simp only [unescField]
    rw [List.dropLast_concat, unQ_escQ]
  · rw [if_neg hq]
    have hch := not_needsQuote_chars (by simpa using hq)
    cases hs : s.data with
    | nil => rfl
    | cons c cs =>
      have hc : c ≠ '"' := (hch c (hs ▸ List.mem_cons_self c cs)).2.1
      simp only [unescField]
      split
      · rename_i heq
        exact absurd (List.head_eq_of_cons_eq heq.symm) (Ne.symm hc)
      · rfl

/-- Splitting one data line on commas and decoding the fields recovers the
field strings. -/
theorem csvLine_roundtrip (fields : List String) (hne : fields ≠ []) :
    (splitTop ',' (csvLine fields) false).map
      (fun f => (⟨unescField f⟩ : String)) = fields := by
  unfold csvLine
  rw [splitTop_joinWith ',' (by decide) (fields.map esc)
    (by simpa using hne)
    (by
      intro t ht
      rw [List.mem_map] at ht
      obtain ⟨f, -, rfl⟩ := ht
      exact ⟨(esc_props ',' (.inl rfl) f).1, (esc_props ',' (.inl rfl) f).2⟩)]
  rw [List.map_map]
  have : ∀ f : String, (⟨unescField (esc f)⟩ : String) = f := by
    intro f
    rw [unescField_esc]
  calc (fields.map fun f => (⟨unescField (esc f)⟩ : String))
      = fields.map id := List.map_congr_left fun f _ => this f
    _ = fields := List.map_id fields

/-- **C8.**  For every collection, the CSV export parses back, under standard
CSV parsing, to exactly the header row
`createdAt,name,description,dueDate,priority,status,devNotes,pinned`
followed by, for each record in order, its eight field values verbatim
(`pinned` as the strings true/false, an absent due date as the empty
string): every field's textual content is recovered exactly. -/
theorem toCSV_csvParse_roundtrip (rows : List Request) :
    csvParse (toCSV rows) = csvHeaders :: rows.map csvFields := by
  unfold csvParse toCSV
  show (splitTop '\n'
      (joinWith '\n'
        (joinWith ',' (csvHeaders.map String.data) ::
          rows.map fun r => csvLine (csvFields r)))
      false).map _ = _
  rw [splitTop_joinWith '\n' (by decide) _ (by simp)
    (by
      intro t ht
      rcases List.mem_cons.1 ht with rfl | ht
      · exact ⟨by decide, by decide⟩
      · rw [List.mem_map] at ht
        obtain ⟨r, -, rfl⟩ := ht
        exact (csvLine_props (csvFields r)))]
  rw [List.map_cons]
  have hhead : (splitTop ',' (joinWith ',' (csvHeaders.map String.data))
      false).map (fun f => (⟨unescField f⟩ : String)) = csvHeaders := by
    decide
  rw [hhead, List.map_map]
  simp only [Function.comp_def]
  have : ∀ r : Request,
      ((splitTop ',' (csvLine (csvFields r)) false).map
        fun f => (⟨unescField f⟩ : String)) = csvFields r :=
    fun r => csvLine_roundtrip (csvFields r) (by simp [csvFields])
  rw [List.map_congr_left fun r _ => this r]
